import Mathlib

/-!
Verification development for the text-to-speech subsystem implemented in
src/src/hooks/useNativeTTS.ts: the text sanitizer, the chunkers, the
language detector, and the engine orchestration of useNativeTTS.speak and
useSmartTTS.speak.

Strings are modelled as lists of unicode scalar values (Lean Char); every
regex of the source uses the u flag or stays inside the BMP, so a
JavaScript string behaves as its sequence of code points here.  The
asynchronous engines (Web Speech API, the premium audio client) are
modelled as explicit behaviour oracles passed to the orchestrator models.
-/

/-- The JavaScript white-space class: the set matched by a backslash-s in the
source regexes and removed by String.trim. -/
def isWsChar (c : Char) : Bool :=
  let n := c.toNat
  n = 0x9 || n = 0xA || n = 0xB || n = 0xC || n = 0xD || n = 0x20 ||
  n = 0xA0 || n = 0x1680 || (0x2000 ≤ n && n ≤ 0x200A) ||
  n = 0x2028 || n = 0x2029 || n = 0x202F || n = 0x205F || n = 0x3000 || n = 0xFEFF

/-- JavaScript line terminators: the characters the dot of a regex without the
s flag does not match. -/
def isLineTerm (c : Char) : Bool :=
  let n := c.toNat
  n = 0xA || n = 0xD || n = 0x2028 || n = 0x2029

/-- Code-point interval test used for the emoji ranges of sanitizeText. -/
def inRange (lo hi : Nat) (c : Char) : Bool := lo ≤ c.toNat && c.toNat ≤ hi

/-- The seven emoji-range removals at the top of sanitizeText, applied in the
order of the source. -/
def removeEmoji (cs : List Char) : List Char :=
  ((((((cs.filter (fun c => !inRange 0x1F600 0x1F64F c)).filter
      (fun c => !inRange 0x1F300 0x1F5FF c)).filter
      (fun c => !inRange 0x1F680 0x1F6FF c)).filter
      (fun c => !inRange 0x2600 0x26FF c)).filter
      (fun c => !inRange 0x2700 0x27BF c)).filter
      (fun c => !inRange 0x1F900 0x1F9FF c)).filter
      (fun c => !inRange 0x1FA00 0x1FA6F c)

/-- A character in one of the seven emoji ranges removed by the sanitizer. -/
def isEmojiChar (c : Char) : Bool :=
  inRange 0x1F600 0x1F64F c || inRange 0x1F300 0x1F5FF c || inRange 0x1F680 0x1F6FF c ||
  inRange 0x2600 0x26FF c || inRange 0x2700 0x27BF c || inRange 0x1F900 0x1F9FF c ||
  inRange 0x1FA00 0x1FA6F c

/-- Lazy search for a closing double asterisk: the content may not contain a
line terminator (the dot of the source regex does not match one) and the
closing pair is the first one found.  Returns the captured content and the
remainder after the closing pair. -/
def findClose2 : List Char → Option (List Char × List Char)
  | [] => none
  | [_] => none
  | c :: d :: rest =>
    if c = '*' && d = '*' then some ([], rest)
    else if isLineTerm c then none
    else
      match findClose2 (d :: rest) with
      | some p => some (c :: p.1, p.2)
      | none => none

/-- One global pass of the source replace of double-asterisk pairs by their
content.  The fuel only bounds the number of scanning steps; every step
consumes at least one character, so the fuel of length + 1 passed by the
wrapper is never exhausted. -/
def replaceStars2F : Nat → List Char → List Char
  | 0, cs => cs
  | _ + 1, [] => []
  | fuel + 1, c :: rest =>
    if c = '*' then
      match rest with
      | [] => [c]
      | d :: rest2 =>
        if d = '*' then
          match findClose2 rest2 with
          | some p => p.1 ++ replaceStars2F fuel p.2
          | none => '*' :: replaceStars2F fuel ('*' :: rest2)
        else c :: replaceStars2F fuel rest
    else c :: replaceStars2F fuel rest

/-- The double-asterisk stage of sanitizeText. -/
def replaceStars2 (cs : List Char) : List Char := replaceStars2F (cs.length + 1) cs

/-- Lazy search for a closing single delimiter (asterisk or backtick); the
content may not contain a line terminator. -/
def findCloseD (delim : Char) : List Char → Option (List Char × List Char)
  | [] => none
  | c :: rest =>
    if c = delim then some ([], rest)
    else if isLineTerm c then none
    else
      match findCloseD delim rest with
      | some p => some (c :: p.1, p.2)
      | none => none

/-- One global pass replacing delimited pairs (single asterisk, backtick) by
their content, as in the source regexes.  Fuel as in replaceStars2F. -/
def replaceDelim1F (delim : Char) : Nat → List Char → List Char
  | 0, cs => cs
  | _ + 1, [] => []
  | fuel + 1, c :: rest =>
    if c = delim then
      match findCloseD delim rest with
      | some p => p.1 ++ replaceDelim1F delim fuel p.2
      | none => c :: replaceDelim1F delim fuel rest
    else c :: replaceDelim1F delim fuel rest

/-- The single-delimiter stage of sanitizeText for a given delimiter. -/
def replaceDelim1 (delim : Char) (cs : List Char) : List Char :=
  replaceDelim1F delim (cs.length + 1) cs

/-- The markdown-heading stage: a run of one to six hash signs followed by a
white-space character is removed (greedy, scanning left to right; of a run
longer than six only the last six take part in a match, as in the source
regex).  The accumulator counts hash signs consumed but not yet emitted. -/
def replaceHashAux : Nat → List Char → List Char
  | n, [] => List.replicate n '#'
  | n, c :: rest =>
    if c = '#' then replaceHashAux (n + 1) rest
    else if isWsChar c && 1 ≤ n then
      List.replicate (n - 6) '#' ++ replaceHashAux 0 rest
    else List.replicate n '#' ++ c :: replaceHashAux 0 rest

/-- The markdown-heading stage of sanitizeText. -/
def replaceHash (cs : List Char) : List Char := replaceHashAux 0 cs

/-- The newline stage: every maximal run of newline characters is replaced by
a period and a space.  The flag records whether the previous character was a
newline of the same run. -/
def replaceNewlinesAux : Bool → List Char → List Char
  | _, [] => []
  | prev, c :: rest =>
    if c = '\n' then
      if prev then replaceNewlinesAux true rest
      else '.' :: ' ' :: replaceNewlinesAux true rest
    else c :: replaceNewlinesAux false rest

/-- The newline stage of sanitizeText. -/
def replaceNewlines (cs : List Char) : List Char := replaceNewlinesAux false cs

/-- The white-space collapse stage: every maximal run of white-space
characters becomes one space. -/
def collapseWsAux : Bool → List Char → List Char
  | _, [] => []
  | prev, c :: rest =>
    if isWsChar c then
      if prev then collapseWsAux true rest
      else ' ' :: collapseWsAux true rest
    else c :: collapseWsAux false rest

/-- The white-space collapse stage of sanitizeText. -/
def collapseWs (cs : List Char) : List Char := collapseWsAux false cs

/-- Leading white-space removal. -/
def trimLeft (cs : List Char) : List Char := cs.dropWhile isWsChar

/-- JavaScript String.trim on code points. -/
def trim (cs : List Char) : List Char :=
  ((trimLeft cs).reverse.dropWhile isWsChar).reverse

/-- The text sanitizer of the web-speech hook (sanitizeText): emoji-range
removal, markdown double-asterisk, single-asterisk, backtick and heading
markers, newline runs to a period and space, white-space collapse, trim. -/
def sanitizeText (text : List Char) : List Char :=
  trim (collapseWs (replaceNewlines (replaceHash
    (replaceDelim1 '`' (replaceDelim1 '*' (replaceStars2 (removeEmoji text)))))))

/-- The module-level sanitizer sanitizeForTTS: its body is character for
character the same regex chain as sanitizeText. -/
def sanitizeForTTS (text : List Char) : List Char := sanitizeText text

/-- Sentence delimiters of splitIntoChunks: purna viram, period, exclamation,
question mark, comma, semicolon. -/
def isChunkDelim (c : Char) : Bool :=
  c = '।' || c = '.' || c = '!' || c = '?' || c = ',' || c = ';'

/-- Sentence delimiters of splitForNativeTTS: purna viram, period,
exclamation, question mark. -/
def isNativeDelim (c : Char) : Bool :=
  c = '।' || c = '.' || c = '!' || c = '?'

/-- State machine for the lookbehind split of the source: the text is split at
every maximal white-space run immediately preceded by a delimiter, the run
being consumed.  prevDelim records whether the last consumed character was a
delimiter; skip records that a separating run is being consumed (a trailing
run yields a trailing empty sentence, as JavaScript split does). -/
def sentAux (isD : Char → Bool) : Bool → Bool → List Char → List Char → List (List Char)
  | _, skip, acc, [] => if skip then [[]] else [acc.reverse]
  | prevDelim, skip, acc, c :: rest =>
    if skip then
      if isWsChar c then sentAux isD false true acc rest
      else sentAux isD (isD c) false [c] rest
    else if prevDelim && isWsChar c then
      acc.reverse :: sentAux isD false true [] rest
    else sentAux isD (isD c) false (c :: acc) rest

/-- Split a text into sentences at white space preceded by a delimiter. -/
def sentenceSplit (isD : Char → Bool) (cs : List Char) : List (List Char) :=
  sentAux isD false false [] cs

/-- State machine for JavaScript split on runs of white space: a leading run
yields a leading empty piece and a trailing run a trailing empty piece. -/
def wsSplitAux : Bool → List Char → List Char → List (List Char)
  | _, acc, [] => [acc.reverse]
  | prev, acc, c :: rest =>
    if isWsChar c then
      if prev then wsSplitAux true acc rest
      else acc.reverse :: wsSplitAux true [] rest
    else wsSplitAux false (c :: acc) rest

/-- JavaScript split of a sentence on white-space runs. -/
def wsSplit (cs : List Char) : List (List Char) := wsSplitAux false [] cs

/-- The accumulation step of the source: the piece is appended to the current
chunk, with a separating space when the current chunk is non-empty. -/
def joinStep (current piece : List Char) : List Char :=
  if current.isEmpty then piece else current ++ ' ' :: piece

/-- The inner word loop of splitIntoChunks: words of an over-long sentence are
packed into word chunks of at most maxLength counting the joining space; a
full word chunk is pushed and the current word starts the next one. -/
def wordFold (maxLength : Nat) :
    List (List Char) → List Char → List (List Char) → List (List Char) × List Char
  | [], wordChunk, chunks => (chunks, wordChunk)
  | word :: words, wordChunk, chunks =>
    if wordChunk.length + word.length + 1 ≤ maxLength then
      wordFold maxLength words (joinStep wordChunk word) chunks
    else
      wordFold maxLength words word (chunks ++ if wordChunk.isEmpty then [] else [wordChunk])

/-- The sentence loop of splitIntoChunks: a sentence that fits is joined to the
current chunk; otherwise the current chunk is pushed and an over-long
sentence is word-split, the trailing word chunk becoming the new current
chunk. -/
def sentFold (maxLength : Nat) :
    List (List Char) → List Char → List (List Char) → List (List Char) × List Char
  | [], currentChunk, chunks => (chunks, currentChunk)
  | sentence :: rest, currentChunk, chunks =>
    if currentChunk.length + sentence.length ≤ maxLength then
      sentFold maxLength rest (joinStep currentChunk sentence) chunks
    else
      let chunks1 := chunks ++ if currentChunk.isEmpty then [] else [currentChunk]
      if maxLength < sentence.length then
        let p := wordFold maxLength (wsSplit sentence) [] chunks1
        sentFold maxLength rest p.2 p.1
      else sentFold maxLength rest sentence chunks1

/-- The chunker splitIntoChunks of the web-speech hook.  A text no longer than
maxLength is returned whole (unfiltered); otherwise sentences are packed and
over-long sentences word-split, and chunks without a visible character are
filtered out at the end. -/
def splitIntoChunks (text : List Char) (maxLength : Nat) : List (List Char) :=
  if text.length ≤ maxLength then [text]
  else
    let p := sentFold maxLength (sentenceSplit isChunkDelim text) [] []
    (p.1 ++ if p.2.isEmpty then [] else [p.2]).filter (fun c => c.any (fun x => !(isWsChar x)))

/-- The sentence loop of splitForNativeTTS (no word-level splitting). -/
def natFold (maxLength : Nat) :
    List (List Char) → List Char → List (List Char) → List (List Char) × List Char
  | [], current, chunks => (chunks, current)
  | sentence :: rest, current, chunks =>
    if current.length + sentence.length ≤ maxLength then
      natFold maxLength rest (joinStep current sentence) chunks
    else natFold maxLength rest sentence (chunks ++ if current.isEmpty then [] else [current])

/-- The chunker splitForNativeTTS of the Android-bridge module. -/
def splitForNativeTTS (text : List Char) (maxLength : Nat) : List (List Char) :=
  if text.length ≤ maxLength then [text]
  else
    let p := natFold maxLength (sentenceSplit isNativeDelim text) [] []
    (p.1 ++ if p.2.isEmpty then [] else [p.2]).filter (fun c => c.any (fun x => !(isWsChar x)))

/-- Devanagari block test of detectLanguage. -/
def isDevanagari (c : Char) : Bool := 0x900 ≤ c.toNat && c.toNat ≤ 0x97F

/-- Latin letter test of detectLanguage. -/
def isLatinLetter (c : Char) : Bool :=
  (97 ≤ c.toNat && c.toNat ≤ 122) || (65 ≤ c.toNat && c.toNat ≤ 90)

/-- The language detector: counts Devanagari code points against Latin
letters; empty or unclassifiable text defaults to hi-IN; a Devanagari share
above three tenths of the classified characters selects hi-IN, otherwise
en-IN.  The strict floating comparison of the source coincides with the
exact rational comparison for every feasible character count. -/
def detectLanguage (text : List Char) : String :=
  if text.isEmpty then "hi-IN"
  else
    let hindiChars := (text.filter isDevanagari).length
    let englishChars := (text.filter isLatinLetter).length
    let totalRelevant := hindiChars + englishChars
    if totalRelevant = 0 then "hi-IN"
    else if 3 * totalRelevant < 10 * hindiChars then "hi-IN"
    else "en-IN"

/-- Result of one speakChunkWeb call as the source resolves it. -/
structure ChunkResult where
  completed : Bool
  stoppedEarly : Bool
  error : Option String
deriving DecidableEq

/-- The success test of the chunk loop: the source treats a result as failed
when not completed or carrying an error. -/
def chunkOk (r : ChunkResult) : Bool := r.completed && r.error.isNone

/-- The chunk loop of tryWebSpeech, parameterized by the engine behaviour b
giving the result of the k-th speakChunkWeb invocation.  Returns whether any
chunk spoke and the list of texts submitted to the engine in order.  A first
failure is retried twice with the same whole chunk after an engine reset;
five consecutive failed chunk iterations abort the loop. -/
def runChunks (b : Nat → ChunkResult) :
    List (List Char) → Nat → Nat → Bool → Bool × List (List Char)
  | [], _, _, anySpoke => (anySpoke, [])
  | chunkText :: rest, k, consecutiveFailures, anySpoke =>
    if chunkOk (b k) then
      let p := runChunks b rest (k + 1) 0 true
      (p.1, chunkText :: p.2)
    else
      let cf := consecutiveFailures + 1
      if 5 ≤ cf then (anySpoke, [chunkText])
      else if chunkOk (b (k + 1)) then
        let p := runChunks b rest (k + 2) 0 true
        (p.1, chunkText :: chunkText :: p.2)
      else if chunkOk (b (k + 2)) then
        let p := runChunks b rest (k + 3) 0 true
        (p.1, chunkText :: chunkText :: chunkText :: p.2)
      else
        let p := runChunks b rest (k + 3) cf anySpoke
        (p.1, chunkText :: chunkText :: chunkText :: p.2)

/-- tryWebSpeech: chunk the clean text at 150 and run the chunk loop; the call
reports success when some chunk spoke or there was no chunk at all. -/
def tryWebSpeech (b : Nat → ChunkResult) (cleanText : List Char) :
    Bool × List (List Char) :=
  let chunks := splitIntoChunks cleanText 150
  let p := runChunks b chunks 0 0 false
  (p.1 || chunks.isEmpty, p.2)

/-- The engine tag of the web-speech hook. -/
inductive ActiveEngine
  | web
  | none
deriving DecidableEq

/-- The outcome of useNativeTTS.speak. -/
structure SpeakResult where
  success : Bool
  engine : ActiveEngine
  error : Option String
deriving DecidableEq

/-- useNativeTTS.speak: unsupported device fails at once; empty sanitized text
is a success no-op; otherwise the web loop decides.  The second component is
the list of texts submitted to the speech engine. -/
def useNativeTTS.speak (isSupported : Bool) (b : Nat → ChunkResult) (text : List Char) :
    SpeakResult × List (List Char) :=
  if !isSupported then
    ({ success := false, engine := ActiveEngine.none,
       error := some "TTS not supported on this device" }, [])
  else
    let cleanText := sanitizeText text
    if cleanText.isEmpty then
      ({ success := true, engine := ActiveEngine.none, error := none }, [])
    else
      let p := tryWebSpeech b cleanText
      if p.1 then ({ success := true, engine := ActiveEngine.web, error := none }, p.2)
      else
        ({ success := false, engine := ActiveEngine.none,
           error := some "Voice not available on this device" }, p.2)

/-- Subscription plan of the smart hook. -/
inductive Plan
  | basic
  | pro
deriving DecidableEq

/-- Usage snapshot consulted by useSmartTTS.speak. -/
structure TTSUsageInfo where
  plan : Plan
  ttsUsed : Nat
  ttsLimit : Nat
  ttsRemaining : Nat
  canUsePremium : Bool
deriving DecidableEq

/-- Behaviour of one speakPremium attempt: the server answers with the
fallback signal (quota exceeded), with audio that then plays to the end or
errors, or with one of the failure shapes the catch block turns into false. -/
inductive PremiumResponse
  | fallbackToWebTTS
  | audio (playsToEnd : Bool)
  | invokeError
  | dataError
  | noAudioData
deriving DecidableEq

/-- The boolean speakPremium resolves with: true only when audio was received
and played to its end. -/
def speakPremium : PremiumResponse → Bool
  | PremiumResponse.audio ok => ok
  | _ => false

/-- The engine tag of the smart hook. -/
inductive SmartEngine
  | premium
  | web
  | none
deriving DecidableEq

/-- Observable outcome of one useSmartTTS.speak call: whether it ended without
recording an error, the active engine it ended on, and the error message. -/
structure SmartResult where
  success : Bool
  engine : SmartEngine
  error : Option String
deriving DecidableEq

/-- useSmartTTS.speak: blank text returns at once; a pro plan with premium
entitlement and enough remaining quota tries the premium client first and
keeps it on success; otherwise, and after any premium failure, the web hook
runs and a web failure records the terminal error message. -/
def useSmartTTS.speak (studentId : Bool) (usageInfo : Option TTSUsageInfo)
    (premiumBehaviour : PremiumResponse) (isSupported : Bool) (b : Nat → ChunkResult)
    (text : List Char) : SmartResult :=
  if (trim text).isEmpty then
    { success := true, engine := SmartEngine.none, error := none }
  else
    let textLength := text.length
    let tryPremium :=
      studentId &&
        (match usageInfo with
         | some u =>
           decide (u.plan = Plan.pro) && u.canUsePremium && decide (textLength ≤ u.ttsRemaining)
         | none => false)
    if tryPremium && speakPremium premiumBehaviour then
      { success := true, engine := SmartEngine.premium, error := none }
    else
      let r := (useNativeTTS.speak isSupported b text).1
      if r.success then
        { success := true,
          engine := if r.engine = ActiveEngine.web then SmartEngine.web else SmartEngine.none,
          error := none }
      else
        { success := false, engine := SmartEngine.none,
          error := some "Voice playback failed. Try again!" }

/-- The safety timeout of speakChunkWeb: at least sixty seconds, and three
hundred milliseconds per character. -/
def chunkSafetyTimeout (textLength : Nat) : Nat := max 60000 (textLength * 300)

/-- The events that can settle one speakChunkWeb promise: the completion
callback, the error callback, and the watchdog concluding silence; each may
never fire. -/
structure ChunkEnv where
  onendAt : Option Nat
  onerrorAt : Option Nat
  watchdogSilenceAt : Option Nat

/-- The time at which speakChunkWeb settles: the first of the engine events
and the safety timeout. -/
def speakChunkWebSettleTime (env : ChunkEnv) (textLength : Nat) : Nat :=
  min (min (env.onendAt.getD (chunkSafetyTimeout textLength))
           (env.onerrorAt.getD (chunkSafetyTimeout textLength)))
      (min (env.watchdogSilenceAt.getD (chunkSafetyTimeout textLength))
           (chunkSafetyTimeout textLength))

/-- The observable actions of the orchestrators relevant to cancellation:
setting and clearing the cancellation flag, telling an engine to stop,
waiting a settle delay, and starting audio output. -/
inductive TTSAction
  | setCancelFlag
  | clearCancelFlag
  | cancelEngine
  | settleDelay (ms : Nat)
  | audioOutput (chunkText : List Char)
deriving DecidableEq

/-- Action trace of the chunk loop: each speakChunkWeb invocation is an audio
output; between retries the engine is cancelled and a backoff delay waited. -/
def runChunksTrace (b : Nat → ChunkResult) :
    List (List Char) → Nat → Nat → List TTSAction
  | [], _, _ => []
  | chunkText :: rest, k, consecutiveFailures =>
    if chunkOk (b k) then
      TTSAction.audioOutput chunkText :: runChunksTrace b rest (k + 1) 0
    else
      let cf := consecutiveFailures + 1
      if 5 ≤ cf then [TTSAction.audioOutput chunkText]
      else
        TTSAction.audioOutput chunkText :: TTSAction.cancelEngine ::
          TTSAction.settleDelay (300 + cf * 200) ::
          (if chunkOk (b (k + 1)) then
            TTSAction.audioOutput chunkText :: runChunksTrace b rest (k + 2) 0
          else
            TTSAction.audioOutput chunkText :: TTSAction.cancelEngine ::
              TTSAction.settleDelay 800 :: TTSAction.audioOutput chunkText ::
              (if chunkOk (b (k + 2)) then runChunksTrace b rest (k + 3) 0
               else runChunksTrace b rest (k + 3) cf))

/-- Action trace of useNativeTTS.speak: stop (flag set, engine cancelled),
flag cleared, 150 ms settle delay, then tryWebSpeech (engine cancelled again,
200 ms delay) and the chunk loop. -/
def useNativeTTS.speakTrace (isSupported : Bool) (b : Nat → ChunkResult)
    (text : List Char) : List TTSAction :=
  if !isSupported then []
  else
    let cleanText := sanitizeText text
    if cleanText.isEmpty then []
    else
      TTSAction.setCancelFlag :: TTSAction.cancelEngine :: TTSAction.clearCancelFlag ::
        TTSAction.settleDelay 150 :: TTSAction.cancelEngine :: TTSAction.settleDelay 200 ::
        runChunksTrace b (splitIntoChunks cleanText 150) 0 0

/-- Actions of useSmartTTS.stop: pause the audio element, stop the web hook
(which sets its cancellation flag and cancels the engine), cancel speech
synthesis once more. -/
def useSmartTTS.stopTrace : List TTSAction :=
  [TTSAction.cancelEngine, TTSAction.setCancelFlag, TTSAction.cancelEngine,
   TTSAction.cancelEngine]

/-- Action trace of speakPremium: it stops the web hook and cancels synthesis
before contacting the server, repeats the stop once audio is in hand and then
plays the full raw text; on the fallback signal or a failure no audio
starts. -/
def useSmartTTS.speakPremiumTrace (premiumBehaviour : PremiumResponse)
    (text : List Char) : List TTSAction :=
  TTSAction.setCancelFlag :: TTSAction.cancelEngine :: TTSAction.cancelEngine ::
    (match premiumBehaviour with
     | PremiumResponse.audio _ =>
       [TTSAction.setCancelFlag, TTSAction.cancelEngine, TTSAction.cancelEngine,
        TTSAction.audioOutput text]
     | _ => [])

/-- Action trace of useSmartTTS.speak: blank text does nothing; otherwise stop
runs first, then the premium attempt when eligible, then the web hook unless
premium succeeded. -/
def useSmartTTS.speakTrace (studentId : Bool) (usageInfo : Option TTSUsageInfo)
    (premiumBehaviour : PremiumResponse) (isSupported : Bool) (b : Nat → ChunkResult)
    (text : List Char) : List TTSAction :=
  if (trim text).isEmpty then []
  else
    let textLength := text.length
    let tryPremium :=
      studentId &&
        (match usageInfo with
         | some u =>
           decide (u.plan = Plan.pro) && u.canUsePremium && decide (textLength ≤ u.ttsRemaining)
         | none => false)
    useSmartTTS.stopTrace ++
      (if tryPremium then
        useSmartTTS.speakPremiumTrace premiumBehaviour text ++
          (if speakPremium premiumBehaviour then []
           else useNativeTTS.speakTrace isSupported b text)
      else useNativeTTS.speakTrace isSupported b text)

/-- Outcome shape of speakWithAndroidNative. -/
structure NativeTTSResult where
  success : Bool
  usedNative : Bool
  error : Option String
deriving DecidableEq

/-- Behaviour of the Android bridge for one call: the completion callback,
the error callback, or silence until the safety timeout. -/
inductive BridgeBehaviour
  | done
  | errorCb (e : String)
  | silent
deriving DecidableEq

/-- speakWithAndroidNative: no bridge fails at once; empty sanitized text is a
success no-op; otherwise the bridge speaks and the promise resolves by the
completion callback, the error callback, or the safety timeout (which
resolves successfully).  The second component records whether the bridge
speak primitive was invoked. -/
def speakWithAndroidNative (available : Bool) (behaviour : BridgeBehaviour)
    (text : List Char) : NativeTTSResult × Bool :=
  if !available then
    ({ success := false, usedNative := false, error := some "Native TTS not available" }, false)
  else
    let cleanText := sanitizeForTTS text
    if cleanText.isEmpty then
      ({ success := true, usedNative := true, error := none }, false)
    else
      (match behaviour with
       | BridgeBehaviour.done => { success := true, usedNative := true, error := none }
       | BridgeBehaviour.errorCb e => { success := false, usedNative := true, error := some e }
       | BridgeBehaviour.silent => { success := true, usedNative := true, error := none },
       true)

/-- The visible content of a text: its characters that are not white space.
Chunking is lossless exactly when it preserves this list. -/
def content (cs : List Char) : List Char := cs.filter (fun c => !(isWsChar c))

/-- Join chunks with single separating spaces. -/
def spaceJoin : List (List Char) → List Char
  | [] => []
  | [c] => c
  | c :: rest => c ++ ' ' :: spaceJoin rest

/-- Concatenated visible content of a list of chunks. -/
def contentJoin (l : List (List Char)) : List Char := (l.map content).flatten

/-- Two characters with no white-space pair among them: the invariant linking
adjacent characters of a white-space-collapsed text. -/
def wsApart (a b : Char) : Prop := ¬(isWsChar a = true ∧ isWsChar b = true)

/-! ### Content preservation machinery -/

theorem content_append (a b : List Char) : content (a ++ b) = content a ++ content b := by
  simp [content]

theorem content_cons_ws {c : Char} (h : isWsChar c = true) (cs : List Char) :
    content (c :: cs) = content cs := by
  simp [content, List.filter_cons, h]

theorem content_cons_nws {c : Char} (h : isWsChar c = false) (cs : List Char) :
    content (c :: cs) = c :: content cs := by
  simp [content, List.filter_cons, h]

theorem content_rev_cons (c : Char) (acc : List Char) :
    content ((c :: acc).reverse) = content acc.reverse ++ content [c] := by
  rw [List.reverse_cons, content_append]

theorem contentJoin_nil : contentJoin [] = [] := rfl

theorem contentJoin_cons (x : List Char) (l : List (List Char)) :
    contentJoin (x :: l) = content x ++ contentJoin l := by
  simp [contentJoin]

theorem contentJoin_append (l₁ l₂ : List (List Char)) :
    contentJoin (l₁ ++ l₂) = contentJoin l₁ ++ contentJoin l₂ := by
  simp [contentJoin]

theorem content_single (c : Char) :
    content [c] = if isWsChar c then [] else [c] := by
  by_cases h : isWsChar c <;> simp [content, List.filter_cons, h]

theorem content_cons (c : Char) (cs : List Char) :
    content (c :: cs) = content [c] ++ content cs := by
  by_cases h : isWsChar c <;> simp [content, List.filter_cons, h]

theorem sentAux_content (isD : Char → Bool) :
    ∀ (cs : List Char) (pd skip : Bool) (acc : List Char), (skip = true → acc = []) →
      contentJoin (sentAux isD pd skip acc cs) = content acc.reverse ++ content cs := by
  intro cs
  induction cs with
  | nil =>
    intro pd skip acc h
    cases skip with
    | true => simp [sentAux, h rfl, contentJoin, content]
    | false => simp [sentAux, contentJoin, content]
  | cons c rest ih =>
    intro pd skip acc h
    cases skip with
    | true =>
      have hacc := h rfl
      subst hacc
      simp only [sentAux]
      rw [if_pos trivial]
      by_cases hw : isWsChar c
      · rw [if_pos hw, ih false true [] (fun _ => rfl)]
        simp [content, List.filter_cons, hw]
      · have hw' : isWsChar c = false := by simpa using hw
        rw [if_neg hw, ih (isD c) false [c] (by simp)]
        simp [content, List.filter_cons, hw']
    | false =>
      simp only [sentAux]
      rw [if_neg Bool.false_ne_true]
      by_cases hs : (pd && isWsChar c) = true
      · have hw : isWsChar c = true := ((Bool.and_eq_true _ _).mp hs).2
        rw [if_pos hs, contentJoin_cons, ih false true [] (fun _ => rfl)]
        simp [content, List.filter_cons, hw]
      · rw [if_neg hs, ih (isD c) false (c :: acc) (by simp)]
        rw [content_rev_cons]
        by_cases hw : isWsChar c
        · simp [content, List.filter_cons, hw]
        · have hw' : isWsChar c = false := by simpa using hw
          simp [content, List.filter_cons, hw']

theorem sentenceSplit_content (isD : Char → Bool) (cs : List Char) :
    contentJoin (sentenceSplit isD cs) = content cs := by
  rw [sentenceSplit, sentAux_content isD cs false false [] (by simp)]
  simp [content]

theorem wsSplitAux_content :
    ∀ (cs : List Char) (prev : Bool) (acc : List Char),
      contentJoin (wsSplitAux prev acc cs) = content acc.reverse ++ content cs := by
  intro cs
  induction cs with
  | nil =>
    intro prev acc
    simp [wsSplitAux, contentJoin, content]
  | cons c rest ih =>
    intro prev acc
    simp only [wsSplitAux]
    by_cases hw : isWsChar c
    · rw [if_pos hw]
      cases prev with
      | true =>
        rw [if_pos rfl, ih true acc, content_cons_ws hw]
      | false =>
        rw [if_neg Bool.false_ne_true, contentJoin_cons, ih true [], content_cons_ws hw]
        simp [content]
    · have hw' : isWsChar c = false := by simpa using hw
      rw [if_neg hw, ih false (c :: acc), content_rev_cons]
      simp [content, List.filter_cons, hw']

theorem wsSplit_content (cs : List Char) : contentJoin (wsSplit cs) = content cs := by
  rw [wsSplit, wsSplitAux_content cs false []]
  simp [content]

theorem wsSplitAux_wsFree :
    ∀ (cs : List Char) (prev : Bool) (acc : List Char),
      (∀ c ∈ acc, isWsChar c = false) →
      ∀ w ∈ wsSplitAux prev acc cs, ∀ c ∈ w, isWsChar c = false := by
  intro cs
  induction cs with
  | nil =>
    intro prev acc hacc w hw c hc
    simp only [wsSplitAux, List.mem_singleton] at hw
    subst hw
    exact hacc c (List.mem_reverse.mp hc)
  | cons c rest ih =>
    intro prev acc hacc w hw x hx
    simp only [wsSplitAux] at hw
    by_cases hws : isWsChar c
    · rw [if_pos hws] at hw
      cases prev with
      | true =>
        rw [if_pos rfl] at hw
        exact ih true acc hacc w hw x hx
      | false =>
        rw [if_neg Bool.false_ne_true] at hw
        rcases List.mem_cons.mp hw with h | h
        · subst h
          exact hacc x (List.mem_reverse.mp hx)
        · exact ih true [] (by simp) w h x hx
    · rw [if_neg hws] at hw
      refine ih false (c :: acc) ?_ w hw x hx
      intro y hy
      rcases List.mem_cons.mp hy with h | h
      · subst h; simpa using hws
      · exact hacc y h

theorem wsSplit_wsFree (cs : List Char) :
    ∀ w ∈ wsSplit cs, ∀ c ∈ w, isWsChar c = false := by
  intro w hw
  exact wsSplitAux_wsFree cs false [] (by simp) w hw

theorem content_joinStep (current piece : List Char) :
    content (joinStep current piece) = content current ++ content piece := by
  by_cases h : current.isEmpty
  · simp [joinStep, h, List.isEmpty_iff.mp h, content]
  · simp only [joinStep, h]
    rw [if_neg Bool.false_ne_true, content_append, content_cons_ws (by decide)]

theorem length_joinStep_of_ne (current piece : List Char) (h : current.isEmpty = false) :
    (joinStep current piece).length = current.length + 1 + piece.length := by
  simp only [joinStep, h]
  rw [if_neg Bool.false_ne_true]
  simp only [List.length_append, List.length_cons]
  omega

theorem wordFold_content (maxLength : Nat) :
    ∀ (words : List (List Char)) (wordChunk : List Char) (chunks : List (List Char)),
      contentJoin (wordFold maxLength words wordChunk chunks).1 ++
          content (wordFold maxLength words wordChunk chunks).2 =
        contentJoin chunks ++ content wordChunk ++ contentJoin words := by
  intro words
  induction words with
  | nil =>
    intro wordChunk chunks
    simp [wordFold, contentJoin]
  | cons word words ih =>
    intro wordChunk chunks
    simp only [wordFold]
    by_cases hfit : wordChunk.length + word.length + 1 ≤ maxLength
    · rw [if_pos hfit, ih, content_joinStep, contentJoin_cons]
      simp [List.append_assoc]
    · rw [if_neg hfit, ih, contentJoin_append, contentJoin_cons]
      by_cases he : wordChunk.isEmpty
      · have : wordChunk = [] := List.isEmpty_iff.mp he
        subst this
        simp [contentJoin, content]
      · have he' : wordChunk.isEmpty = false := by simpa using he
        rw [he']
        simp [contentJoin, List.append_assoc]

theorem sentFold_content (maxLength : Nat) :
    ∀ (sentences : List (List Char)) (currentChunk : List Char) (chunks : List (List Char)),
      contentJoin (sentFold maxLength sentences currentChunk chunks).1 ++
          content (sentFold maxLength sentences currentChunk chunks).2 =
        contentJoin chunks ++ content currentChunk ++ contentJoin sentences := by
  intro sentences
  induction sentences with
  | nil =>
    intro currentChunk chunks
    simp [sentFold, contentJoin]
  | cons sentence rest ih =>
    intro currentChunk chunks
    simp only [sentFold]
    by_cases hfit : currentChunk.length + sentence.length ≤ maxLength
    · rw [if_pos hfit, ih, content_joinStep, contentJoin_cons]
      simp [List.append_assoc]
    · rw [if_neg hfit]
      have hchunks1 :
          contentJoin (chunks ++ if currentChunk.isEmpty then [] else [currentChunk]) =
            contentJoin chunks ++ content currentChunk := by
        by_cases he : currentChunk.isEmpty
        · have : currentChunk = [] := List.isEmpty_iff.mp he
          subst this
          simp [contentJoin, content]
        · have he' : currentChunk.isEmpty = false := by simpa using he
          rw [he']
          simp [contentJoin]
      by_cases hlong : maxLength < sentence.length
      · rw [if_pos hlong, ih, wordFold_content, hchunks1, wsSplit_content]
        simp [contentJoin_cons, content, List.append_assoc]
      · rw [if_neg hlong, ih, hchunks1, contentJoin_cons]
        simp [List.append_assoc]

theorem natFold_content (maxLength : Nat) :
    ∀ (sentences : List (List Char)) (current : List Char) (chunks : List (List Char)),
      contentJoin (natFold maxLength sentences current chunks).1 ++
          content (natFold maxLength sentences current chunks).2 =
        contentJoin chunks ++ content current ++ contentJoin sentences := by
  intro sentences
  induction sentences with
  | nil =>
    intro current chunks
    simp [natFold, contentJoin]
  | cons sentence rest ih =>
    intro current chunks
    simp only [natFold]
    by_cases hfit : current.length + sentence.length ≤ maxLength
    · rw [if_pos hfit, ih, content_joinStep, contentJoin_cons]
      simp [List.append_assoc]
    · rw [if_neg hfit, ih, contentJoin_append, contentJoin_cons]
      by_cases he : current.isEmpty
      · have : current = [] := List.isEmpty_iff.mp he
        subst this
        simp [contentJoin, content]
      · have he' : current.isEmpty = false := by simpa using he
        rw [he']
        simp [contentJoin, List.append_assoc]

theorem content_nil_of_no_visible {cs : List Char}
    (h : cs.any (fun x => !(isWsChar x)) = false) : content cs = [] := by
  have := List.any_eq_false.mp h
  unfold content
  rw [List.filter_eq_nil_iff]
  intro a ha
  simpa using this a ha

theorem contentJoin_filter_visible (l : List (List Char)) :
    contentJoin (l.filter (fun c => c.any (fun x => !(isWsChar x)))) = contentJoin l := by
  induction l with
  | nil => rfl
  | cons x l ih =>
    by_cases h : x.any (fun c => !(isWsChar c)) = true
    · rw [List.filter_cons, if_pos h, contentJoin_cons, contentJoin_cons, ih]
    · have h' : x.any (fun c => !(isWsChar c)) = false := by simpa using h
      rw [List.filter_cons, if_neg h, contentJoin_cons, ih, content_nil_of_no_visible h']
      simp

theorem content_spaceJoin :
    ∀ l : List (List Char), content (spaceJoin l) = contentJoin l := by
  intro l
  induction l with
  | nil => rfl
  | cons x l ih =>
    cases l with
    | nil => simp [spaceJoin, contentJoin, content]
    | cons y l' =>
      show content (x ++ ' ' :: spaceJoin (y :: l')) = _
      rw [content_append, content_cons_ws (by decide), ih]
      simp [contentJoin_cons, List.append_assoc]

theorem contentJoin_splitIntoChunks (text : List Char) (maxLength : Nat) :
    contentJoin (splitIntoChunks text maxLength) = content text := by
  unfold splitIntoChunks
  by_cases hlen : text.length ≤ maxLength
  · rw [if_pos hlen]
    simp [contentJoin]
  · rw [if_neg hlen, contentJoin_filter_visible, contentJoin_append]
    have hmain := sentFold_content maxLength (sentenceSplit isChunkDelim text) [] []
    rw [sentenceSplit_content] at hmain
    set p := sentFold maxLength (sentenceSplit isChunkDelim text) [] [] with hp
    by_cases he : p.2.isEmpty
    · have h2 : p.2 = [] := List.isEmpty_iff.mp he
      rw [if_pos he]
      simpa [h2, contentJoin, content] using hmain
    · have he' : p.2.isEmpty = false := by simpa using he
      rw [he']
      simpa [contentJoin, content] using hmain

theorem contentJoin_splitForNativeTTS (text : List Char) (maxLength : Nat) :
    contentJoin (splitForNativeTTS text maxLength) = content text := by
  unfold splitForNativeTTS
  by_cases hlen : text.length ≤ maxLength
  · rw [if_pos hlen]
    simp [contentJoin]
  · rw [if_neg hlen, contentJoin_filter_visible, contentJoin_append]
    have hmain := natFold_content maxLength (sentenceSplit isNativeDelim text) [] []
    rw [sentenceSplit_content] at hmain
    set p := natFold maxLength (sentenceSplit isNativeDelim text) [] [] with hp
    by_cases he : p.2.isEmpty
    · have h2 : p.2 = [] := List.isEmpty_iff.mp he
      rw [if_pos he]
      simpa [h2, contentJoin, content] using hmain
    · have he' : p.2.isEmpty = false := by simpa using he
      rw [he']
      simpa [contentJoin, content] using hmain

/-! ### Chunk length bounds -/

theorem wordFold_bound (maxLength : Nat) :
    ∀ (words : List (List Char)) (wordChunk : List Char) (chunks : List (List Char)),
      (∀ c ∈ chunks, c.length ≤ maxLength + 1 ∨ ∀ x ∈ c, isWsChar x = false) →
      (wordChunk.length ≤ maxLength ∨ ∀ x ∈ wordChunk, isWsChar x = false) →
      (∀ w ∈ words, ∀ x ∈ w, isWsChar x = false) →
      (∀ c ∈ (wordFold maxLength words wordChunk chunks).1,
          c.length ≤ maxLength + 1 ∨ ∀ x ∈ c, isWsChar x = false) ∧
        ((wordFold maxLength words wordChunk chunks).2.length ≤ maxLength ∨
          ∀ x ∈ (wordFold maxLength words wordChunk chunks).2, isWsChar x = false) := by
  intro words
  induction words with
  | nil =>
    intro wordChunk chunks hch hwc _
    exact ⟨hch, hwc⟩
  | cons word words ih =>
    intro wordChunk chunks hch hwc hwords
    simp only [wordFold]
    by_cases hfit : wordChunk.length + word.length + 1 ≤ maxLength
    · rw [if_pos hfit]
      refine ih (joinStep wordChunk word) chunks hch (Or.inl ?_)
        (fun w hw => hwords w (List.mem_cons_of_mem _ hw))
      by_cases he : wordChunk.isEmpty
      · have hz : wordChunk = [] := List.isEmpty_iff.mp he
        subst hz
        have hj : joinStep [] word = word := by simp [joinStep]
        rw [hj]
        simp only [List.length_nil] at hfit
        omega
      · have he' : wordChunk.isEmpty = false := by simpa using he
        rw [length_joinStep_of_ne _ _ he']
        omega
    · rw [if_neg hfit]
      refine ih word (chunks ++ if wordChunk.isEmpty then [] else [wordChunk]) ?_
        (Or.inr (hwords word (List.mem_cons_self _ _)))
        (fun w hw => hwords w (List.mem_cons_of_mem _ hw))
      intro c hc
      rcases List.mem_append.mp hc with h | h
      · exact hch c h
      · by_cases he : wordChunk.isEmpty
        · rw [if_pos he] at h
          simp at h
        · have he' : wordChunk.isEmpty = false := by simpa using he
          rw [he'] at h
          have : c = wordChunk := by simpa using h
          subst this
          rcases hwc with h1 | h1
          · exact Or.inl (Nat.le_succ_of_le h1)
          · exact Or.inr h1

theorem sentFold_bound (maxLength : Nat) :
    ∀ (sentences : List (List Char)) (currentChunk : List Char) (chunks : List (List Char)),
      (∀ c ∈ chunks, c.length ≤ maxLength + 1 ∨ ∀ x ∈ c, isWsChar x = false) →
      (currentChunk.length ≤ maxLength + 1 ∨ ∀ x ∈ currentChunk, isWsChar x = false) →
      (∀ c ∈ (sentFold maxLength sentences currentChunk chunks).1,
          c.length ≤ maxLength + 1 ∨ ∀ x ∈ c, isWsChar x = false) ∧
        ((sentFold maxLength sentences currentChunk chunks).2.length ≤ maxLength + 1 ∨
          ∀ x ∈ (sentFold maxLength sentences currentChunk chunks).2, isWsChar x = false) := by
  intro sentences
  induction sentences with
  | nil =>
    intro currentChunk chunks hch hcur
    exact ⟨hch, hcur⟩
  | cons sentence rest ih =>
    intro currentChunk chunks hch hcur
    simp only [sentFold]
    by_cases hfit : currentChunk.length + sentence.length ≤ maxLength
    · rw [if_pos hfit]
      refine ih (joinStep currentChunk sentence) chunks hch (Or.inl ?_)
      by_cases he : currentChunk.isEmpty
      · have hz : currentChunk = [] := List.isEmpty_iff.mp he
        subst hz
        have hj : joinStep [] sentence = sentence := by simp [joinStep]
        rw [hj]
        simp only [List.length_nil] at hfit
        omega
      · have he' : currentChunk.isEmpty = false := by simpa using he
        rw [length_joinStep_of_ne _ _ he']
        omega
    · rw [if_neg hfit]
      have hch1 : ∀ c ∈ chunks ++ if currentChunk.isEmpty then [] else [currentChunk],
          c.length ≤ maxLength + 1 ∨ ∀ x ∈ c, isWsChar x = false := by
        intro c hc
        rcases List.mem_append.mp hc with h | h
        · exact hch c h
        · by_cases he : currentChunk.isEmpty
          · rw [if_pos he] at h
            simp at h
          · have he' : currentChunk.isEmpty = false := by simpa using he
            rw [he'] at h
            have : c = currentChunk := by simpa using h
            subst this
            exact hcur
      by_cases hlong : maxLength < sentence.length
      · rw [if_pos hlong]
        have hwf := wordFold_bound maxLength (wsSplit sentence) []
          (chunks ++ if currentChunk.isEmpty then [] else [currentChunk]) hch1
          (Or.inl (by simp)) (wsSplit_wsFree sentence)
        refine ih _ _ hwf.1 ?_
        rcases hwf.2 with h | h
        · exact Or.inl (Nat.le_succ_of_le h)
        · exact Or.inr h
      · rw [if_neg hlong]
        refine ih sentence _ hch1 (Or.inl ?_)
        omega

theorem splitIntoChunks_bound (text : List Char) (maxLength : Nat) :
    ∀ c ∈ splitIntoChunks text maxLength,
      c.length ≤ maxLength + 1 ∨ ∀ x ∈ c, isWsChar x = false := by
  unfold splitIntoChunks
  by_cases hlen : text.length ≤ maxLength
  · rw [if_pos hlen]
    intro c hc
    have : c = text := by simpa using hc
    subst this
    exact Or.inl (Nat.le_succ_of_le hlen)
  · rw [if_neg hlen]
    intro c hc
    have hc' := (List.mem_filter.mp hc).1
    have hmain := sentFold_bound maxLength (sentenceSplit isChunkDelim text) [] []
      (by simp) (Or.inl (by simp))
    set p := sentFold maxLength (sentenceSplit isChunkDelim text) [] [] with hp
    rcases List.mem_append.mp hc' with h | h
    · exact hmain.1 c h
    · by_cases he : p.2.isEmpty
      · rw [if_pos he] at h
        simp at h
      · have he' : p.2.isEmpty = false := by simpa using he
        rw [he'] at h
        have : c = p.2 := by simpa using h
        subst this
        exact hmain.2

/-! ### Detector characterization -/

theorem isDevanagari_not_latin {c : Char} (h : isDevanagari c = true) :
    isLatinLetter c = false := by
  simp only [isDevanagari, Bool.and_eq_true, decide_eq_true_eq] at h
  simp only [isLatinLetter, Bool.or_eq_false_iff, Bool.and_eq_false_iff,
    decide_eq_false_iff_not, not_le]
  omega

theorem isLatinLetter_not_devanagari {c : Char} (h : isLatinLetter c = true) :
    isDevanagari c = false := by
  simp only [isLatinLetter, Bool.or_eq_true, Bool.and_eq_true, decide_eq_true_eq] at h
  simp only [isDevanagari, Bool.and_eq_false_iff, decide_eq_false_iff_not, not_le]
  omega

theorem detectLanguage_eq (text : List Char) :
    detectLanguage text =
      if (text.filter isDevanagari).length + (text.filter isLatinLetter).length = 0 then
        "hi-IN"
      else if 3 * ((text.filter isDevanagari).length + (text.filter isLatinLetter).length) <
          10 * (text.filter isDevanagari).length then "hi-IN"
      else "en-IN" := by
  cases text with
  | nil => simp [detectLanguage]
  | cons c cs => simp [detectLanguage]

/-- Claim C4: for every input text and maxLength, joining the chunker output
chunks with single spaces reconstructs the input losslessly in content modulo
white-space normalization: the non-white-space characters of the joined
output of splitIntoChunks, and likewise of splitForNativeTTS, are exactly
those of the input, in order. -/
theorem chunks_rejoin_reconstructs_content (text : List Char) (maxLength : Nat) :
    content (spaceJoin (splitIntoChunks text maxLength)) = content text ∧
    content (spaceJoin (splitForNativeTTS text maxLength)) = content text := by
  constructor
  · rw [content_spaceJoin, contentJoin_splitIntoChunks]
  · rw [content_spaceJoin, contentJoin_splitForNativeTTS]

/-- Claim C5 counterexample: with maxLength 5, the six-character text
"a. ab." is returned as the single chunk "a. ab." of length 6: the chunk
exceeds maxLength although it is not a single unsplittable word (it contains
a space, and each of its space-separated words has length at most 5).  The
sentence-merge condition of the source omits the joining space from its
length check. -/
theorem splitIntoChunks_maxLength_counterexample :
    splitIntoChunks "a. ab.".toList 5 = ["a. ab.".toList] ∧
    ("a. ab.".toList).length = 6 ∧
    ("a. ab.".toList).any isWsChar = true ∧
    (∀ w ∈ wsSplit "a. ab.".toList, w.length ≤ 5) := by
  refine ⟨by decide, by decide, by decide, by decide⟩

/-- Claim C5 (amended): every chunk produced by splitIntoChunks either has
length at most maxLength + 1 (the joining space of a sentence merge is not
counted by the length check of the source, giving the off-by-one) or contains no
white space at all, i.e. is a single unsplittable word. -/
theorem splitIntoChunks_length_bound (text : List Char) (maxLength : Nat) :
    ∀ c ∈ splitIntoChunks text maxLength,
      c.length ≤ maxLength + 1 ∨ ∀ x ∈ c, isWsChar x = false := by
  exact splitIntoChunks_bound text maxLength

/-- Witness for the amended Claim C5 at the counterexample input. -/
theorem splitIntoChunks_length_bound_witness :
    "a. ab.".toList.length ≤ 5 + 1 ∨ ∀ x ∈ "a. ab.".toList, isWsChar x = false :=
  splitIntoChunks_length_bound "a. ab.".toList 5 "a. ab.".toList (by decide)

/-- Claim C6 counterexample: the single-space input is returned whole as a
whitespace-only chunk, and the empty input as an empty chunk (the short
input path of both chunkers skips the final filter). -/
theorem splitIntoChunks_whitespace_chunk_counterexample :
    splitIntoChunks [' '] 180 = [[' ']] ∧ isWsChar ' ' = true ∧
    splitForNativeTTS [] 1500 = [[]] := by
  refine ⟨by decide, by decide, by decide⟩

/-- Claim C6 (amended): for every input containing at least one visible
(non-white-space) character, every chunk of splitIntoChunks and of
splitForNativeTTS is non-empty and contains a visible character; only a
whitespace-only input no longer than maxLength is returned as-is as a single
whitespace-only (possibly empty) chunk. -/
theorem chunks_nonempty_of_visible (text : List Char) (maxLength : Nat)
    (h : text.any (fun x => !(isWsChar x)) = true) :
    (∀ c ∈ splitIntoChunks text maxLength,
        c ≠ [] ∧ c.any (fun x => !(isWsChar x)) = true) ∧
    (∀ c ∈ splitForNativeTTS text maxLength,
        c ≠ [] ∧ c.any (fun x => !(isWsChar x)) = true) := by
  constructor
  · intro c hc
    unfold splitIntoChunks at hc
    by_cases hlen : text.length ≤ maxLength
    · rw [if_pos hlen] at hc
      have : c = text := by simpa using hc
      subst this
      refine ⟨?_, h⟩
      intro hnil
      subst hnil
      simp at h
    · rw [if_neg hlen] at hc
      have := (List.mem_filter.mp hc).2
      refine ⟨?_, this⟩
      intro hnil
      subst hnil
      simp at this
  · intro c hc
    unfold splitForNativeTTS at hc
    by_cases hlen : text.length ≤ maxLength
    · rw [if_pos hlen] at hc
      have : c = text := by simpa using hc
      subst this
      refine ⟨?_, h⟩
      intro hnil
      subst hnil
      simp at h
    · rw [if_neg hlen] at hc
      have := (List.mem_filter.mp hc).2
      refine ⟨?_, this⟩
      intro hnil
      subst hnil
      simp at this

/-- Witness for the amended Claim C6 at a concrete input. -/
theorem chunks_nonempty_of_visible_witness :
    "hi".toList ≠ [] ∧ "hi".toList.any (fun x => !(isWsChar x)) = true :=
  (chunks_nonempty_of_visible "hi".toList 180 (by decide)).1 "hi".toList (by decide)

/-- Claim C7: the language detector is a pure total function; it answers the
primary locale hi-IN when there is no classifiable character, answers hi-IN
exactly when the Devanagari share of the classified characters exceeds three
tenths and en-IN otherwise, and in particular all-Devanagari text yields
hi-IN and all-Latin text yields en-IN. -/
theorem detectLanguage_spec (text : List Char) :
    ((text.filter isDevanagari).length + (text.filter isLatinLetter).length = 0 →
      detectLanguage text = "hi-IN") ∧
    (0 < (text.filter isDevanagari).length + (text.filter isLatinLetter).length →
      3 * ((text.filter isDevanagari).length + (text.filter isLatinLetter).length) <
          10 * (text.filter isDevanagari).length →
      detectLanguage text = "hi-IN") ∧
    (0 < (text.filter isDevanagari).length + (text.filter isLatinLetter).length →
      ¬(3 * ((text.filter isDevanagari).length + (text.filter isLatinLetter).length) <
          10 * (text.filter isDevanagari).length) →
      detectLanguage text = "en-IN") ∧
    (text ≠ [] → (∀ c ∈ text, isDevanagari c = true) → detectLanguage text = "hi-IN") ∧
    (text ≠ [] → (∀ c ∈ text, isLatinLetter c = true) → detectLanguage text = "en-IN") := by
  rw [detectLanguage_eq]
  refine ⟨?_, ?_, ?_, ?_, ?_⟩
  · intro h
    rw [if_pos h]
  · intro h0 hr
    rw [if_neg (by omega), if_pos hr]
  · intro h0 hr
    rw [if_neg (by omega), if_neg hr]
  · intro hne hall
    have hdev : text.filter isDevanagari = text := List.filter_eq_self.mpr hall
    have hlat : text.filter isLatinLetter = [] := by
      rw [List.filter_eq_nil_iff]
      intro a ha
      simp [isDevanagari_not_latin (hall a ha)]
    rw [hdev, hlat]
    have hpos : 0 < text.length := List.length_pos.mpr hne
    rw [if_neg (by simp only [List.length_nil]; omega),
      if_pos (by simp only [List.length_nil]; omega)]
  · intro hne hall
    have hlat : text.filter isLatinLetter = text := List.filter_eq_self.mpr hall
    have hdev : text.filter isDevanagari = [] := by
      rw [List.filter_eq_nil_iff]
      intro a ha
      simp [isLatinLetter_not_devanagari (hall a ha)]
    rw [hdev, hlat]
    have hpos : 0 < text.length := List.length_pos.mpr hne
    rw [if_neg (by simp only [List.length_nil]; omega),
      if_neg (by simp only [List.length_nil]; omega)]

/-- Witness for Claim C7 at concrete inputs: all-Latin text detects as
en-IN. -/
theorem detectLanguage_spec_witness : detectLanguage "abc".toList = "en-IN" :=
  (detectLanguage_spec "abc".toList).2.2.2.2 (by decide) (by decide)

/-! ### Orchestrator lemmas -/

theorem dropWhile_head_not (p : Char → Bool) :
    ∀ (l : List Char) (x : Char), (l.dropWhile p).head? = some x → p x = false := by
  intro l
  induction l with
  | nil => intro x hx; simp [List.dropWhile] at hx
  | cons c rest ih =>
    intro x hx
    by_cases hc : p c = true
    · rw [List.dropWhile_cons_of_pos hc] at hx
      exact ih x hx
    · rw [List.dropWhile_cons_of_neg hc] at hx
      have : c = x := by simpa using hx
      subst this
      simpa using hc

theorem trim_any_visible (cs : List Char) (h : trim cs ≠ []) :
    (trim cs).any (fun x => !(isWsChar x)) = true := by
  unfold trim at *
  set d := (trimLeft cs).reverse.dropWhile isWsChar with hd
  cases hcase : d with
  | nil =>
    rw [hcase] at h
    simp at h
  | cons y ys =>
    have hy : isWsChar y = false := by
      refine dropWhile_head_not isWsChar (trimLeft cs).reverse y ?_
      rw [← hd, hcase]
      rfl
    rw [List.any_eq_true]
    exact ⟨y, by simp, by simp [hy]⟩

theorem content_ne_nil_of_any {cs : List Char}
    (h : cs.any (fun x => !(isWsChar x)) = true) : content cs ≠ [] := by
  rcases List.any_eq_true.mp h with ⟨x, hx, hpx⟩
  intro h0
  have : x ∈ content cs := by
    unfold content
    rw [List.mem_filter]
    exact ⟨hx, hpx⟩
  rw [h0] at this
  simp at this

theorem sanitizeText_any_visible (text : List Char) (h : sanitizeText text ≠ []) :
    (sanitizeText text).any (fun x => !(isWsChar x)) = true := by
  unfold sanitizeText at *
  exact trim_any_visible _ h

theorem splitIntoChunks_ne_nil_of_content {cs : List Char} {m : Nat}
    (h : content cs ≠ []) : splitIntoChunks cs m ≠ [] := by
  intro h0
  apply h
  rw [← contentJoin_splitIntoChunks cs m, h0]
  rfl

theorem runChunks_all_fail (b : Nat → ChunkResult) (hfail : ∀ k, chunkOk (b k) = false) :
    ∀ (chunks : List (List Char)) (k cf : Nat) (anySpoke : Bool),
      (runChunks b chunks k cf anySpoke).1 = anySpoke := by
  intro chunks
  induction chunks with
  | nil => intro k cf any; rfl
  | cons ch rest ih =>
    intro k cf any
    simp only [runChunks, hfail, Bool.false_eq_true, if_false]
    by_cases h5 : 5 ≤ cf + 1
    · rw [if_pos h5]
    · rw [if_neg h5]
      exact ih (k + 3) (cf + 1) any

theorem runChunks_resubmits_whole (b : Nat → ChunkResult) :
    ∀ (chunks : List (List Char)) (k cf : Nat) (anySpoke : Bool),
      ∀ s ∈ (runChunks b chunks k cf anySpoke).2, s ∈ chunks := by
  intro chunks
  induction chunks with
  | nil =>
    intro k cf any s hs
    simp [runChunks] at hs
  | cons ch rest ih =>
    intro k cf any s hs
    simp only [runChunks] at hs
    by_cases h1 : chunkOk (b k) = true
    · rw [if_pos h1] at hs
      rcases List.mem_cons.mp hs with h | h
      · simp [h]
      · exact List.mem_cons_of_mem _ (ih (k + 1) 0 true s h)
    · rw [if_neg h1] at hs
      by_cases h5 : 5 ≤ cf + 1
      · rw [if_pos h5] at hs
        simp at hs
        simp [hs]
      · rw [if_neg h5] at hs
        by_cases h2 : chunkOk (b (k + 1)) = true
        · rw [if_pos h2] at hs
          rcases List.mem_cons.mp hs with h | h
          · simp [h]
          rcases List.mem_cons.mp h with h' | h'
          · simp [h']
          · exact List.mem_cons_of_mem _ (ih (k + 2) 0 true s h')
        · rw [if_neg h2] at hs
          by_cases h3 : chunkOk (b (k + 2)) = true
          · rw [if_pos h3] at hs
            rcases List.mem_cons.mp hs with h | h
            · simp [h]
            rcases List.mem_cons.mp h with h' | h'
            · simp [h']
            rcases List.mem_cons.mp h' with h'' | h''
            · simp [h'']
            · exact List.mem_cons_of_mem _ (ih (k + 3) 0 true s h'')
          · rw [if_neg h3] at hs
            rcases List.mem_cons.mp hs with h | h
            · simp [h]
            rcases List.mem_cons.mp h with h' | h'
            · simp [h']
            rcases List.mem_cons.mp h' with h'' | h''
            · simp [h'']
            · exact List.mem_cons_of_mem _ (ih (k + 3) (cf + 1) any s h'')

/-- Claim C2: speak always settles.  First, every per-segment wait of
speakChunkWeb is bounded by the safety timeout, a function of the segment
length, whatever the engine does (including never firing a callback).
Second, when the engine fails every attempt, useNativeTTS.speak resolves
with success false and engine none (and the terminal error message) instead
of hanging. -/
theorem speak_settles_and_fails_definitively :
    (∀ (env : ChunkEnv) (textLength : Nat),
      speakChunkWebSettleTime env textLength ≤ chunkSafetyTimeout textLength) ∧
    (∀ (b : Nat → ChunkResult) (text : List Char),
      (∀ k, chunkOk (b k) = false) → sanitizeText text ≠ [] →
      (useNativeTTS.speak true b text).1 =
        { success := false, engine := ActiveEngine.none,
          error := some "Voice not available on this device" }) := by
  constructor
  · intro env textLength
    exact le_trans (min_le_right _ _) (min_le_right _ _)
  · intro b text hfail hclean
    have hany : (sanitizeText text).any (fun x => !(isWsChar x)) = true :=
      sanitizeText_any_visible text hclean
    have hchunks : splitIntoChunks (sanitizeText text) 150 ≠ [] :=
      splitIntoChunks_ne_nil_of_content (content_ne_nil_of_any hany)
    have hweb : (tryWebSpeech b (sanitizeText text)).1 = false := by
      simp only [tryWebSpeech]
      rw [runChunks_all_fail b hfail]
      simp [List.isEmpty_iff, hchunks]
    simp only [useNativeTTS.speak, Bool.not_true]
    rw [if_neg Bool.false_ne_true,
      if_neg (fun hh => hclean (List.isEmpty_iff.mp hh)), hweb,
      if_neg Bool.false_ne_true]

/-- Witness for Claim C2 at a concrete environment and an engine that fails
every attempt. -/
theorem speak_settles_and_fails_definitively_witness :
    speakChunkWebSettleTime ⟨none, none, none⟩ 5 ≤ chunkSafetyTimeout 5 ∧
    (useNativeTTS.speak true (fun _ => ⟨false, false, none⟩) "hello".toList).1 =
      { success := false, engine := ActiveEngine.none,
        error := some "Voice not available on this device" } :=
  ⟨speak_settles_and_fails_definitively.1 ⟨none, none, none⟩ 5,
   speak_settles_and_fails_definitively.2 (fun _ => ⟨false, false, none⟩) "hello".toList
     (fun _ => rfl) (by decide)⟩

/-- Claim C1: when the premium engine is eligible (pro plan, premium
entitlement, enough remaining quota) but answers with the quota-exceeded
fallback signal, useSmartTTS.speak does not fail: it falls back to the web
hook, and when the local (web) engine succeeds the call ends successfully
with the web engine active and no error recorded. -/
theorem smart_speak_quota_fallback_uses_web (u : TTSUsageInfo) (b : Nat → ChunkResult)
    (text : List Char)
    (_hplan : u.plan = Plan.pro) (_hcan : u.canUsePremium = true)
    (_hquota : text.length ≤ u.ttsRemaining)
    (hblank : (trim text).isEmpty = false)
    (hlocal : (useNativeTTS.speak true b text).1.success = true)
    (hweb : (useNativeTTS.speak true b text).1.engine = ActiveEngine.web) :
    useSmartTTS.speak true (some u) PremiumResponse.fallbackToWebTTS true b text =
      { success := true, engine := SmartEngine.web, error := none } := by
  unfold useSmartTTS.speak
  rw [hblank, if_neg Bool.false_ne_true]
  simp only [speakPremium, Bool.and_false]
  rw [if_neg Bool.false_ne_true]
  rw [hlocal, if_pos rfl]
  rw [if_pos hweb]

/-- Witness for Claim C1 at a concrete pro-plan snapshot, a quota-exceeded
premium answer and a web engine that succeeds. -/
theorem smart_speak_quota_fallback_uses_web_witness :
    useSmartTTS.speak true (some ⟨Plan.pro, 0, 150000, 150000, true⟩)
        PremiumResponse.fallbackToWebTTS true (fun _ => ⟨true, false, none⟩)
        "hello".toList =
      { success := true, engine := SmartEngine.web, error := none } :=
  smart_speak_quota_fallback_uses_web ⟨Plan.pro, 0, 150000, 150000, true⟩
    (fun _ => ⟨true, false, none⟩) "hello".toList rfl rfl (by decide) (by decide)
    (by decide) (by decide)

set_option maxRecDepth 10000 in
/-- Claim C8 counterexample: a 300-character single-word segment whose first
attempt is flagged stopped-early (never-started) is re-submitted whole, twice,
with its full 300 characters; it is not re-chunked into sub-segments of about
200 characters. -/
theorem stopped_early_retried_whole_counterexample :
    (runChunks (fun _ => ⟨false, true, some "never-started"⟩)
        [List.replicate 300 'a'] 0 0 false).2 =
      [List.replicate 300 'a', List.replicate 300 'a', List.replicate 300 'a'] ∧
    (List.replicate 300 'a').length = 300 := by
  refine ⟨by decide, by decide⟩

/-- Claim C8 (amended): the retry policy of tryWebSpeech re-submits a failed
or stopped-early segment whole: every text submitted to the engine during the
chunk loop is one of the original chunks, never a re-chunked sub-segment. -/
theorem retry_resubmits_whole_chunk (b : Nat → ChunkResult)
    (chunks : List (List Char)) (k cf : Nat) (anySpoke : Bool) :
    ∀ s ∈ (runChunks b chunks k cf anySpoke).2, s ∈ chunks :=
  runChunks_resubmits_whole b chunks k cf anySpoke

/-- Witness for the amended Claim C8 at a concrete chunk list. -/
theorem retry_resubmits_whole_chunk_witness : "x".toList ∈ ["x".toList] :=
  retry_resubmits_whole_chunk (fun _ => ⟨false, true, some "never-started"⟩)
    ["x".toList] 0 0 false "x".toList (by decide)

/-- Claim C9 counterexample: on an unsupported device, a speak call whose text
sanitizes to the empty string is not a success: useNativeTTS.speak answers
success false (unsupported-device error) before looking at the text. -/
theorem speak_empty_unsupported_counterexample :
    sanitizeText [] = [] ∧
    (useNativeTTS.speak false (fun _ => ⟨true, false, none⟩) []).1.success = false := by
  refine ⟨by decide, by decide⟩

/-- Claim C9 (amended): provided the engine environment is available, a speak
call whose text sanitizes to the empty string is a success no-op: it answers
success without submitting anything to an engine — for useNativeTTS.speak
(supported device) and for speakWithAndroidNative (bridge present). -/
theorem empty_sanitized_success_noop :
    (∀ (b : Nat → ChunkResult) (text : List Char), sanitizeText text = [] →
      useNativeTTS.speak true b text =
        ({ success := true, engine := ActiveEngine.none, error := none }, [])) ∧
    (∀ (behaviour : BridgeBehaviour) (text : List Char), sanitizeForTTS text = [] →
      speakWithAndroidNative true behaviour text =
        ({ success := true, usedNative := true, error := none }, false)) := by
  constructor
  · intro b text h
    unfold useNativeTTS.speak
    simp [h]
  · intro behaviour text h
    unfold speakWithAndroidNative
    simp [h]

/-- Witness for the amended Claim C9 at the empty text. -/
theorem empty_sanitized_success_noop_witness :
    useNativeTTS.speak true (fun _ => ⟨true, false, none⟩) [] =
      ({ success := true, engine := ActiveEngine.none, error := none }, []) :=
  empty_sanitized_success_noop.1 (fun _ => ⟨true, false, none⟩) [] (by decide)

/-! ### Cancellation ordering -/

theorem mem_pre_of_append_eq_audio :
    ∀ (s : List TTSAction) (r pre post : List TTSAction) (ch : List Char),
      (∀ c, TTSAction.audioOutput c ∉ s) →
      s ++ r = pre ++ TTSAction.audioOutput ch :: post →
      ∀ a ∈ s, a ∈ pre := by
  intro s
  induction s with
  | nil =>
    intro r pre post ch _ _ a ha
    simp at ha
  | cons x s' ih =>
    intro r pre post ch hnoaudio heq a ha
    cases pre with
    | nil =>
      rw [List.nil_append] at heq
      have hx : x = TTSAction.audioOutput ch := (List.cons_eq_cons.mp heq).1
      exact absurd (hx ▸ List.mem_cons_self x s') (hnoaudio ch)
    | cons y pre' =>
      rw [List.cons_append, List.cons_append] at heq
      have hxy := (List.cons_eq_cons.mp heq).1
      have htail := (List.cons_eq_cons.mp heq).2
      rcases List.mem_cons.mp ha with h | h
      · subst h
        rw [hxy]
        exact List.mem_cons_self _ _
      · exact List.mem_cons_of_mem _
          (ih r pre' post ch (fun c hc => hnoaudio c (List.mem_cons_of_mem _ hc)) htail a h)

/-- Claim C3: every speak call cancels the prior in-flight request before any
audio action: in the action trace of useNativeTTS.speak, and likewise of
useSmartTTS.speak, every audio output is preceded by both a set of the
cancellation flag and an engine stop. -/
theorem cancel_precedes_audio (isSupported studentId : Bool)
    (usageInfo : Option TTSUsageInfo) (premiumBehaviour : PremiumResponse)
    (b : Nat → ChunkResult) (text : List Char)
    (pre post : List TTSAction) (ch : List Char) :
    (useNativeTTS.speakTrace isSupported b text =
        pre ++ TTSAction.audioOutput ch :: post →
      TTSAction.setCancelFlag ∈ pre ∧ TTSAction.cancelEngine ∈ pre) ∧
    (useSmartTTS.speakTrace studentId usageInfo premiumBehaviour isSupported b text =
        pre ++ TTSAction.audioOutput ch :: post →
      TTSAction.setCancelFlag ∈ pre ∧ TTSAction.cancelEngine ∈ pre) := by
  have hnative : ∀ (sup : Bool),
      useNativeTTS.speakTrace sup b text = pre ++ TTSAction.audioOutput ch :: post →
      TTSAction.setCancelFlag ∈ pre ∧ TTSAction.cancelEngine ∈ pre := by
    intro sup
    cases sup with
    | false =>
      intro heq
      simp [useNativeTTS.speakTrace] at heq
    | true =>
      intro heq
      simp only [useNativeTTS.speakTrace, Bool.not_true] at heq
      rw [if_neg Bool.false_ne_true] at heq
      cases hempty : (sanitizeText text).isEmpty with
      | true =>
        rw [hempty, if_pos rfl] at heq
        exact absurd heq.symm (by simp)
      | false =>
        rw [hempty, if_neg Bool.false_ne_true] at heq
        generalize hR : runChunksTrace b (splitIntoChunks (sanitizeText text) 150) 0 0 = R at heq
        have heq' :
            ([TTSAction.setCancelFlag, TTSAction.cancelEngine, TTSAction.clearCancelFlag,
              TTSAction.settleDelay 150, TTSAction.cancelEngine, TTSAction.settleDelay 200] :
              List TTSAction) ++ R =
            pre ++ TTSAction.audioOutput ch :: post := heq
        have hmem := mem_pre_of_append_eq_audio _ _ pre post ch
          (by intro c; simp) heq'
        exact ⟨hmem TTSAction.setCancelFlag (by simp),
               hmem TTSAction.cancelEngine (by simp)⟩
  refine ⟨hnative isSupported, ?_⟩
  intro heq
  simp only [useSmartTTS.speakTrace] at heq
  cases hblank : (trim text).isEmpty with
  | true =>
    rw [hblank, if_pos rfl] at heq
    exact absurd heq.symm (by simp)
  | false =>
    rw [hblank, if_neg Bool.false_ne_true] at heq
    have hmem := mem_pre_of_append_eq_audio useSmartTTS.stopTrace _ pre post ch
      (by intro c; simp [useSmartTTS.stopTrace]) heq
    exact ⟨hmem TTSAction.setCancelFlag (by simp [useSmartTTS.stopTrace]),
           hmem TTSAction.cancelEngine (by simp [useSmartTTS.stopTrace])⟩

/-- Witness for Claim C3: the concrete trace of a supported one-chunk call
splits around its audio action with the stop actions in the prefix. -/
theorem cancel_precedes_audio_witness :
    TTSAction.setCancelFlag ∈
        ([TTSAction.setCancelFlag, TTSAction.cancelEngine, TTSAction.clearCancelFlag,
          TTSAction.settleDelay 150, TTSAction.cancelEngine, TTSAction.settleDelay 200] :
          List TTSAction) ∧
      TTSAction.cancelEngine ∈
        ([TTSAction.setCancelFlag, TTSAction.cancelEngine, TTSAction.clearCancelFlag,
          TTSAction.settleDelay 150, TTSAction.cancelEngine, TTSAction.settleDelay 200] :
          List TTSAction) :=
  (cancel_precedes_audio true true none PremiumResponse.fallbackToWebTTS
      (fun _ => ⟨true, false, none⟩) "hi".toList
      [TTSAction.setCancelFlag, TTSAction.cancelEngine, TTSAction.clearCancelFlag,
        TTSAction.settleDelay 150, TTSAction.cancelEngine, TTSAction.settleDelay 200]
      [] "hi".toList).1 (by decide)

/-! ### Sanitizer stage lemmas -/

theorem replaceStars2F_no_star :
    ∀ (cs : List Char) (f : Nat), '*' ∉ cs → replaceStars2F f cs = cs := by
  intro cs
  induction cs with
  | nil => intro f _; cases f <;> rfl
  | cons c rest ih =>
    intro f h
    cases f with
    | zero => rfl
    | succ f =>
      have hc : ¬(c = '*') := fun hh => h (hh ▸ List.mem_cons_self c rest)
      simp only [replaceStars2F]
      rw [if_neg hc, ih f (fun hm => h (List.mem_cons_of_mem _ hm))]

theorem replaceStars2_no_star (cs : List Char) (h : '*' ∉ cs) : replaceStars2 cs = cs :=
  replaceStars2F_no_star cs _ h

theorem replaceDelim1F_no_delim (delim : Char) :
    ∀ (cs : List Char) (f : Nat), delim ∉ cs → replaceDelim1F delim f cs = cs := by
  intro cs
  induction cs with
  | nil => intro f _; cases f <;> rfl
  | cons c rest ih =>
    intro f h
    cases f with
    | zero => rfl
    | succ f =>
      have hc : ¬(c = delim) := fun hh => h (hh ▸ List.mem_cons_self c rest)
      simp only [replaceDelim1F]
      rw [if_neg hc, ih f (fun hm => h (List.mem_cons_of_mem _ hm))]

theorem replaceDelim1_no_delim (delim : Char) (cs : List Char) (h : delim ∉ cs) :
    replaceDelim1 delim cs = cs :=
  replaceDelim1F_no_delim delim cs _ h

theorem replaceHashAux_no_hash :
    ∀ (cs : List Char), '#' ∉ cs → replaceHashAux 0 cs = cs := by
  intro cs
  induction cs with
  | nil => intro _; rfl
  | cons c rest ih =>
    intro h
    have hc : ¬(c = '#') := fun hh => h (hh ▸ List.mem_cons_self c rest)
    simp only [replaceHashAux]
    rw [if_neg hc, if_neg (by simp)]
    rw [ih (fun hm => h (List.mem_cons_of_mem _ hm))]
    rfl

theorem replaceHash_no_hash (cs : List Char) (h : '#' ∉ cs) : replaceHash cs = cs :=
  replaceHashAux_no_hash cs h

theorem replaceNewlinesAux_no_newline :
    ∀ (cs : List Char) (prev : Bool), '\n' ∉ cs → replaceNewlinesAux prev cs = cs := by
  intro cs
  induction cs with
  | nil => intro prev _; rfl
  | cons c rest ih =>
    intro prev h
    have hc : ¬(c = '\n') := fun hh => h (hh ▸ List.mem_cons_self c rest)
    simp only [replaceNewlinesAux]
    rw [if_neg hc, ih false (fun hm => h (List.mem_cons_of_mem _ hm))]

theorem replaceNewlines_no_newline (cs : List Char) (h : '\n' ∉ cs) :
    replaceNewlines cs = cs :=
  replaceNewlinesAux_no_newline cs false h

theorem mem_removeEmoji {x : Char} {cs : List Char} (h : x ∈ removeEmoji cs) :
    x ∈ cs ∧ isEmojiChar x = false := by
  unfold removeEmoji at h
  rcases List.mem_filter.mp h with ⟨h6, r7⟩
  rcases List.mem_filter.mp h6 with ⟨h5, r6⟩
  rcases List.mem_filter.mp h5 with ⟨h4, r5⟩
  rcases List.mem_filter.mp h4 with ⟨h3, r4⟩
  rcases List.mem_filter.mp h3 with ⟨h2, r3⟩
  rcases List.mem_filter.mp h2 with ⟨h1, r2⟩
  rcases List.mem_filter.mp h1 with ⟨hcs, r1⟩
  refine ⟨hcs, ?_⟩
  simp only [Bool.not_eq_true'] at r1 r2 r3 r4 r5 r6 r7
  simp [isEmojiChar, r1, r2, r3, r4, r5, r6, r7]

theorem removeEmoji_eq_self {cs : List Char} (h : ∀ x ∈ cs, isEmojiChar x = false) :
    removeEmoji cs = cs := by
  have hr : ∀ (lo hi : Nat) (x : Char), x ∈ cs → (!inRange lo hi x) = true →
      True := fun _ _ _ _ _ => trivial
  have hcomp : ∀ x ∈ cs, ∀ lo hi, (isEmojiChar x = false) →
      (inRange lo hi x = true → isEmojiChar x = true) → (!inRange lo hi x) = true := by
    intro x _ lo hi hfalse himp
    cases hir : inRange lo hi x with
    | false => simp
    | true => rw [himp hir] at hfalse; exact absurd hfalse (by simp)
  unfold removeEmoji
  rw [List.filter_eq_self.mpr (fun x hx => hcomp x hx _ _ (h x hx)
        (fun hir => by simp [isEmojiChar, hir]))]
  rw [List.filter_eq_self.mpr (fun x hx => hcomp x hx _ _ (h x hx)
        (fun hir => by simp [isEmojiChar, hir]))]
  rw [List.filter_eq_self.mpr (fun x hx => hcomp x hx _ _ (h x hx)
        (fun hir => by simp [isEmojiChar, hir]))]
  rw [List.filter_eq_self.mpr (fun x hx => hcomp x hx _ _ (h x hx)
        (fun hir => by simp [isEmojiChar, hir]))]
  rw [List.filter_eq_self.mpr (fun x hx => hcomp x hx _ _ (h x hx)
        (fun hir => by simp [isEmojiChar, hir]))]
  rw [List.filter_eq_self.mpr (fun x hx => hcomp x hx _ _ (h x hx)
        (fun hir => by simp [isEmojiChar, hir]))]
  rw [List.filter_eq_self.mpr (fun x hx => hcomp x hx _ _ (h x hx)
        (fun hir => by simp [isEmojiChar, hir]))]

theorem mem_replaceHashAux :
    ∀ (cs : List Char) (n : Nat) (x : Char),
      x ∈ replaceHashAux n cs → x = '#' ∨ x ∈ cs := by
  intro cs
  induction cs with
  | nil =>
    intro n x hx
    simp only [replaceHashAux] at hx
    exact Or.inl (List.eq_of_mem_replicate hx)
  | cons c rest ih =>
    intro n x hx
    simp only [replaceHashAux] at hx
    by_cases hc : c = '#'
    · rw [if_pos hc] at hx
      rcases ih (n + 1) x hx with h | h
      · exact Or.inl h
      · exact Or.inr (List.mem_cons_of_mem _ h)
    · rw [if_neg hc] at hx
      by_cases hw : (isWsChar c && decide (1 ≤ n)) = true
      · rw [if_pos hw] at hx
        rcases List.mem_append.mp hx with h | h
        · exact Or.inl (List.eq_of_mem_replicate h)
        · rcases ih 0 x h with h' | h'
          · exact Or.inl h'
          · exact Or.inr (List.mem_cons_of_mem _ h')
      · rw [if_neg hw] at hx
        rcases List.mem_append.mp hx with h | h
        · exact Or.inl (List.eq_of_mem_replicate h)
        · rcases List.mem_cons.mp h with h' | h'
          · exact Or.inr (h' ▸ List.mem_cons_self c rest)
          · rcases ih 0 x h' with h'' | h''
            · exact Or.inl h''
            · exact Or.inr (List.mem_cons_of_mem _ h'')

theorem mem_replaceNewlinesAux :
    ∀ (cs : List Char) (prev : Bool) (x : Char),
      x ∈ replaceNewlinesAux prev cs → x = '.' ∨ x = ' ' ∨ x ∈ cs := by
  intro cs
  induction cs with
  | nil => intro prev x hx; simp [replaceNewlinesAux] at hx
  | cons c rest ih =>
    intro prev x hx
    simp only [replaceNewlinesAux] at hx
    by_cases hc : c = '\n'
    · rw [if_pos hc] at hx
      cases prev with
      | true =>
        rw [if_pos rfl] at hx
        rcases ih true x hx with h | h | h
        · exact Or.inl h
        · exact Or.inr (Or.inl h)
        · exact Or.inr (Or.inr (List.mem_cons_of_mem _ h))
      | false =>
        rw [if_neg Bool.false_ne_true] at hx
        rcases List.mem_cons.mp hx with h | h
        · exact Or.inl h
        rcases List.mem_cons.mp h with h' | h'
        · exact Or.inr (Or.inl h')
        rcases ih true x h' with h'' | h'' | h''
        · exact Or.inl h''
        · exact Or.inr (Or.inl h'')
        · exact Or.inr (Or.inr (List.mem_cons_of_mem _ h''))
    · rw [if_neg hc] at hx
      rcases List.mem_cons.mp hx with h | h
      · exact Or.inr (Or.inr (h ▸ List.mem_cons_self c rest))
      rcases ih false x h with h' | h' | h'
      · exact Or.inl h'
      · exact Or.inr (Or.inl h')
      · exact Or.inr (Or.inr (List.mem_cons_of_mem _ h'))

theorem replaceNewlinesAux_no_newline_out :
    ∀ (cs : List Char) (prev : Bool), '\n' ∉ replaceNewlinesAux prev cs := by
  intro cs
  induction cs with
  | nil => intro prev hx; simp [replaceNewlinesAux] at hx
  | cons c rest ih =>
    intro prev hx
    simp only [replaceNewlinesAux] at hx
    by_cases hc : c = '\n'
    · rw [if_pos hc] at hx
      cases prev with
      | true =>
        rw [if_pos rfl] at hx
        exact ih true hx
      | false =>
        rw [if_neg Bool.false_ne_true] at hx
        rcases List.mem_cons.mp hx with h | h
        · exact absurd h (by decide)
        rcases List.mem_cons.mp h with h' | h'
        · exact absurd h' (by decide)
        · exact ih true h'
    · rw [if_neg hc] at hx
      rcases List.mem_cons.mp hx with h | h
      · exact hc h.symm
      · exact ih false h

theorem mem_collapseWsAux :
    ∀ (cs : List Char) (prev : Bool) (x : Char),
      x ∈ collapseWsAux prev cs → x = ' ' ∨ x ∈ cs := by
  intro cs
  induction cs with
  | nil => intro prev x hx; simp [collapseWsAux] at hx
  | cons c rest ih =>
    intro prev x hx
    simp only [collapseWsAux] at hx
    by_cases hw : isWsChar c
    · rw [if_pos hw] at hx
      cases prev with
      | true =>
        rw [if_pos rfl] at hx
        rcases ih true x hx with h | h
        · exact Or.inl h
        · exact Or.inr (List.mem_cons_of_mem _ h)
      | false =>
        rw [if_neg Bool.false_ne_true] at hx
        rcases List.mem_cons.mp hx with h | h
        · exact Or.inl h
        rcases ih true x h with h' | h'
        · exact Or.inl h'
        · exact Or.inr (List.mem_cons_of_mem _ h')
    · rw [if_neg hw] at hx
      rcases List.mem_cons.mp hx with h | h
      · exact Or.inr (h ▸ List.mem_cons_self c rest)
      rcases ih false x h with h' | h'
      · exact Or.inl h'
      · exact Or.inr (List.mem_cons_of_mem _ h')

theorem mem_trim {x : Char} {cs : List Char} (h : x ∈ trim cs) : x ∈ cs := by
  unfold trim trimLeft at h
  have h1 := List.mem_reverse.mp h
  have h2 := (List.dropWhile_suffix isWsChar).subset h1
  have h3 := List.mem_reverse.mp h2
  exact (List.dropWhile_suffix isWsChar).subset h3

/-! ### White-space normalization lemmas -/

theorem collapseWsAux_ws_space :
    ∀ (cs : List Char) (prev : Bool) (x : Char),
      x ∈ collapseWsAux prev cs → isWsChar x = true → x = ' ' := by
  intro cs prev x hx hw
  rcases mem_collapseWsAux cs prev x hx with h | h
  · exact h
  · -- a character kept by the collapse was emitted as is, hence not white space;
    -- derive this by a direct induction
    clear h
    induction cs generalizing prev with
    | nil => simp [collapseWsAux] at hx
    | cons c rest ih =>
      simp only [collapseWsAux] at hx
      by_cases hcw : isWsChar c
      · rw [if_pos hcw] at hx
        cases prev with
        | true =>
          rw [if_pos rfl] at hx
          exact ih true hx
        | false =>
          rw [if_neg Bool.false_ne_true] at hx
          rcases List.mem_cons.mp hx with h | h
          · exact h
          · exact ih true h
      · rw [if_neg hcw] at hx
        rcases List.mem_cons.mp hx with h | h
        · subst h; exact absurd hw (by simpa using hcw)
        · exact ih false h

theorem collapseWsAux_head_not_ws :
    ∀ (cs : List Char) (x : Char),
      (collapseWsAux true cs).head? = some x → isWsChar x = false := by
  intro cs
  induction cs with
  | nil => intro x hx; simp [collapseWsAux] at hx
  | cons c rest ih =>
    intro x hx
    simp only [collapseWsAux] at hx
    by_cases hcw : isWsChar c
    · rw [if_pos hcw, if_pos trivial] at hx
      exact ih x hx
    · rw [if_neg hcw] at hx
      have : c = x := by simpa using hx
      subst this
      simpa using hcw

theorem collapseWsAux_chain :
    ∀ (cs : List Char) (prev : Bool), List.Chain' wsApart (collapseWsAux prev cs) := by
  intro cs
  induction cs with
  | nil => intro prev; simp [collapseWsAux]
  | cons c rest ih =>
    intro prev
    simp only [collapseWsAux]
    by_cases hcw : isWsChar c
    · rw [if_pos hcw]
      cases prev with
      | true =>
        rw [if_pos rfl]
        exact ih true
      | false =>
        rw [if_neg Bool.false_ne_true]
        refine List.chain'_cons'.mpr ⟨?_, ih true⟩
        intro b hb
        have hbw : isWsChar b = false := collapseWsAux_head_not_ws rest b hb
        exact fun hcon => by rw [hbw] at hcon; exact absurd hcon.2 (by simp)
    · rw [if_neg hcw]
      refine List.chain'_cons'.mpr ⟨?_, ih false⟩
      intro b _
      exact fun hcon => by
        have : isWsChar c = true := hcon.1
        exact absurd this (by simpa using hcw)

theorem chain_wsApart_reverse {l : List Char} (h : List.Chain' wsApart l) :
    List.Chain' wsApart l.reverse := by
  rw [List.chain'_reverse]
  exact List.Chain'.imp (fun a b hab => fun hcon => hab ⟨hcon.2, hcon.1⟩) h

theorem chain_wsApart_trim {cs : List Char} (h : List.Chain' wsApart cs) :
    List.Chain' wsApart (trim cs) := by
  unfold trim trimLeft
  exact chain_wsApart_reverse
    (List.Chain'.suffix (chain_wsApart_reverse
      (List.Chain'.suffix h (List.dropWhile_suffix isWsChar)))
      (List.dropWhile_suffix isWsChar))

theorem collapseWsAux_true_eq_false_of_head {rest : List Char}
    (h : ∀ d, rest.head? = some d → isWsChar d = false) :
    collapseWsAux true rest = collapseWsAux false rest := by
  cases rest with
  | nil => rfl
  | cons d rest' =>
    have hd : isWsChar d = false := h d rfl
    simp [collapseWsAux, hd]

theorem collapse_id :
    ∀ (cs : List Char), (∀ x ∈ cs, isWsChar x = true → x = ' ') →
      List.Chain' wsApart cs → collapseWsAux false cs = cs := by
  intro cs
  induction cs with
  | nil => intro _ _; rfl
  | cons c rest ih =>
    intro hspace hchain
    have hchain' : List.Chain' wsApart rest := (List.chain'_cons'.mp hchain).2
    have hhead := (List.chain'_cons'.mp hchain).1
    simp only [collapseWsAux]
    by_cases hcw : isWsChar c
    · rw [if_pos hcw]
      have hc : c = ' ' := hspace c (List.mem_cons_self c rest) hcw
      have hnext : ∀ d, rest.head? = some d → isWsChar d = false := by
        intro d hd
        have := hhead d hd
        cases hdw : isWsChar d with
        | false => rfl
        | true => exact absurd ⟨hcw, hdw⟩ this
      rw [collapseWsAux_true_eq_false_of_head hnext,
        ih (fun x hx hw => hspace x (List.mem_cons_of_mem _ hx) hw) hchain', hc,
        if_neg Bool.false_ne_true]
    · rw [if_neg hcw,
        ih (fun x hx hw => hspace x (List.mem_cons_of_mem _ hx) hw) hchain']

theorem trimLeft_eq_self {cs : List Char}
    (h : ∀ x, cs.head? = some x → isWsChar x = false) :
    cs.dropWhile isWsChar = cs := by
  cases cs with
  | nil => rfl
  | cons c rest =>
    have hc : isWsChar c = false := h c rfl
    exact List.dropWhile_cons_of_neg (by simp [hc])

theorem trim_head_not_ws (cs : List Char) :
    ∀ x, (trim cs).head? = some x → isWsChar x = false := by
  intro x hx
  unfold trim at hx
  rw [List.head?_reverse] at hx
  set r := (trimLeft cs).reverse with hr
  set d := r.dropWhile isWsChar with hd
  rcases (List.dropWhile_suffix isWsChar : d <:+ r) with ⟨t, ht⟩
  have hdne : d ≠ [] := by
    intro h0
    rw [h0] at hx
    simp at hx
  have h1 : d.getLast? = r.getLast? := by
    rw [← ht]
    exact (List.getLast?_append_of_ne_nil t hdne).symm
  rw [h1] at hx
  rw [hr, List.getLast?_reverse] at hx
  exact dropWhile_head_not isWsChar cs x hx

theorem trim_last_not_ws (cs : List Char) :
    ∀ x, (trim cs).getLast? = some x → isWsChar x = false := by
  intro x hx
  unfold trim at hx
  rw [List.getLast?_reverse] at hx
  exact dropWhile_head_not isWsChar (trimLeft cs).reverse x hx

theorem trim_eq_self_of_ends {cs : List Char}
    (hh : ∀ x, cs.head? = some x → isWsChar x = false)
    (hl : ∀ x, cs.getLast? = some x → isWsChar x = false) :
    trim cs = cs := by
  unfold trim trimLeft
  rw [trimLeft_eq_self hh]
  rw [trimLeft_eq_self (by intro x hx; rw [List.head?_reverse] at hx; exact hl x hx)]
  exact List.reverse_reverse cs

theorem trim_idem (cs : List Char) : trim (trim cs) = trim cs :=
  trim_eq_self_of_ends (trim_head_not_ws cs) (trim_last_not_ws cs)

/-- Claim C10 counterexample: the sanitizer is not idempotent.  On the input
of asterisk, a, newline, b, asterisk, the first pass cannot pair the
asterisks (the dot of the markdown regexes does not cross a newline) but
turns the newline into a period and a space; the second pass then finds the
pair and strips it, so applying the sanitizer twice differs from applying it
once. -/
theorem sanitizeText_not_idempotent_counterexample :
    sanitizeText "*a\nb*".toList = "*a. b*".toList ∧
    sanitizeText (sanitizeText "*a\nb*".toList) = "a. b".toList ∧
    sanitizeText (sanitizeText "*a\nb*".toList) ≠ sanitizeText "*a\nb*".toList := by
  refine ⟨by decide, by decide, by decide⟩

/-- Claim C10 (amended): the sanitizer is idempotent on every input free of
the markdown marker characters asterisk, backtick and hash sign.  (Markers
can defeat idempotence: pairs separated only by a newline are exposed once
the newline collapses, and a long hash run with doubled spacing leaves a
fresh heading match for a second pass.) -/
theorem sanitizeText_idempotent_marker_free (s : List Char)
    (hstar : '*' ∉ s) (htick : '`' ∉ s) (hhash : '#' ∉ s) :
    sanitizeText (sanitizeText s) = sanitizeText s := by
  have hestar : '*' ∉ removeEmoji s := fun hm => hstar (mem_removeEmoji hm).1
  have hetick : '`' ∉ removeEmoji s := fun hm => htick (mem_removeEmoji hm).1
  have hehash : '#' ∉ removeEmoji s := fun hm => hhash (mem_removeEmoji hm).1
  have hp1 : sanitizeText s = trim (collapseWs (replaceNewlines (removeEmoji s))) := by
    unfold sanitizeText
    rw [replaceStars2_no_star _ hestar, replaceDelim1_no_delim '*' _ hestar,
      replaceDelim1_no_delim '`' _ hetick, replaceHash_no_hash _ hehash]
  set t := trim (collapseWs (replaceNewlines (removeEmoji s))) with ht
  have hmem_t : ∀ x ∈ t, x = '.' ∨ x = ' ' ∨ x ∈ removeEmoji s := by
    intro x hx
    have hx1 := mem_trim hx
    rcases mem_collapseWsAux _ _ _ hx1 with h | h
    · exact Or.inr (Or.inl h)
    · rcases mem_replaceNewlinesAux _ _ _ h with h' | h'
      · exact Or.inl h'
      · rcases h' with h'' | h''
        · exact Or.inr (Or.inl h'')
        · exact Or.inr (Or.inr h'')
  have hstar_t : '*' ∉ t := by
    intro hx
    rcases hmem_t _ hx with h | h | h
    · exact absurd h (by decide)
    · exact absurd h (by decide)
    · exact hestar h
  have htick_t : '`' ∉ t := by
    intro hx
    rcases hmem_t _ hx with h | h | h
    · exact absurd h (by decide)
    · exact absurd h (by decide)
    · exact hetick h
  have hhash_t : '#' ∉ t := by
    intro hx
    rcases hmem_t _ hx with h | h | h
    · exact absurd h (by decide)
    · exact absurd h (by decide)
    · exact hehash h
  have hnl_t : '\n' ∉ t := by
    intro hx
    have hx1 := mem_trim hx
    rcases mem_collapseWsAux _ _ _ hx1 with h | h
    · exact absurd h (by decide)
    · exact replaceNewlinesAux_no_newline_out _ _ h
  have hemoji_t : ∀ x ∈ t, isEmojiChar x = false := by
    intro x hx
    rcases hmem_t x hx with h | h | h
    · subst h; decide
    · subst h; decide
    · exact (mem_removeEmoji h).2
  rw [hp1]
  show sanitizeText t = t
  unfold sanitizeText
  rw [removeEmoji_eq_self hemoji_t, replaceStars2_no_star _ hstar_t,
    replaceDelim1_no_delim '*' _ hstar_t, replaceDelim1_no_delim '`' _ htick_t,
    replaceHash_no_hash _ hhash_t, replaceNewlines_no_newline _ hnl_t]
  have hspace : ∀ x ∈ t, isWsChar x = true → x = ' ' := by
    intro x hx hw
    exact collapseWsAux_ws_space _ _ x (mem_trim hx) hw
  have hchain : List.Chain' wsApart t :=
    chain_wsApart_trim (collapseWsAux_chain _ false)
  have hcoll : collapseWs t = t := collapse_id t hspace hchain
  rw [show collapseWs t = collapseWsAux false t from rfl] at hcoll
  rw [show collapseWs t = collapseWsAux false t from rfl, hcoll, ht]
  exact trim_idem _

/-- Witness for the amended Claim C10 at a concrete marker-free input. -/
theorem sanitizeText_idempotent_marker_free_witness :
    sanitizeText (sanitizeText "a\nb".toList) = sanitizeText "a\nb".toList :=
  sanitizeText_idempotent_marker_free "a\nb".toList (by decide) (by decide) (by decide)
